import Mathlib

/-!
Verification development for the participant-to-image assignment allocator of
the Real-world_SCI_IQA survey tool.

The definitions below are a shallow embedding of the allocator core in
`app5_fixed.py` (SQLite variant) and of `allocate_next_slot` /
`get_plan_image_ids_for_slot` in `app_pg.py` (PostgreSQL plan variant).

Modelling conventions:
* `image_id` is `TEXT` in the schema; it is modelled as `Nat` (an abstract
  identity; the code never inspects the text beyond equality).
* `participant_id` is modelled as `String` (UUID text in the source).
* The `images` and `assignments` tables are modelled as lists of rows in
  table (rowid) order; a `SELECT` without `ORDER BY` returns rows in that
  order, and Python's stable `list.sort` is modelled by a stable insertion
  sort.
* `build_strata_key(cat, res, dist) = f"{cat}|{res}|{dist}"` is injective on
  `(int, str, int)` triples (the first and last components are decimal
  integers, so the key parses uniquely); the key is therefore modelled as the
  triple itself.
* Wall-clock timestamps (`assigned_time`) carry no information used by the
  allocator and are omitted from the row models.
* `random.shuffle(chosen)` is modelled by an explicit `shuffle` parameter;
  theorems assume only that it permutes its input, and witnesses use the
  identity shuffle.
* `st.warning` (the only signal the allocator emits) is modelled as a
  `Bool` in the allocator's result; the allocator itself has no fatal /
  exception path (it is a total function of the database state).
-/

namespace SCIIQA

/-! ### Configuration constants (app5_fixed.py lines 43-47) -/

def P : Nat := 300
def R_TARGET : Nat := 25
def N_TARGET : Nat := 6000
def K_PER_PERSON : Nat := N_TARGET * R_TARGET / P
def COVER_M : Nat := 2

/-! ### Data model (schema, app5_fixed.py lines 133-154) -/

/-- One row of the `images` table: identity, stratification axes and the live
exposure counter `assigned_count` (INTEGER DEFAULT 0, only ever incremented,
hence modelled as `Nat`).  `rel_path` is omitted (never read by the
allocator). -/
structure ImageRow where
  image_id : Nat
  category : Int
  resolution : String
  distortion : Int
  assigned_count : Nat
deriving DecidableEq, Repr

/-- One row of the `assignments` table; `(participant_id, image_id)` is the
primary key, `ord` the 0-based position in the participant's sequence. -/
structure AssignmentRow where
  participant_id : String
  image_id : Nat
  ord : Nat
deriving DecidableEq, Repr

/-- The database state the allocator reads and writes. -/
structure DB where
  images : List ImageRow
  assignments : List AssignmentRow
deriving DecidableEq, Repr

/-- Stratum key: the `(category, resolution, distortion)` triple
(`build_strata_key`, line 287). -/
abbrev Key := Int × String × Int

/-- An available-image entry `(image_id, assigned_count)` as collected by
`fetch_available_by_strata`. -/
abbrev Entry := Nat × Nat

/-- The Python dict `strata`: association list in key insertion order. -/
abbrev Strata := List (Key × List Entry)

def keyOf (r : ImageRow) : Key := (r.category, r.resolution, r.distortion)

/-! ### Generic list helpers mirroring the Python operations -/

/-- Stable insertion step for `sortBy`: `e` is placed after every earlier
element strictly smaller than it and before the first element not smaller,
which reproduces the stability of Python's `list.sort`. -/
def insertBy (lt : α → α → Bool) (e : α) : List α → List α
  | [] => [e]
  | f :: fs => if lt f e then f :: insertBy lt e fs else e :: f :: fs

/-- Stable sort (model of Python's stable `list.sort(key=...)`). -/
def sortBy (lt : α → α → Bool) : List α → List α
  | [] => []
  | e :: es => insertBy lt e (sortBy lt es)

/-- First-occurrence deduplication, the model of
`list(dict.fromkeys(xs))` (line 347): keeps the first occurrence of each
element, in order. -/
def dedupFirstAux [DecidableEq α] (seen : List α) : List α → List α
  | [] => []
  | x :: xs => if x ∈ seen then dedupFirstAux seen xs
               else x :: dedupFirstAux (x :: seen) xs

def dedupFirst [DecidableEq α] (l : List α) : List α := dedupFirstAux [] l

/-! ### Catalog / ledger queries (app5_fixed.py lines 260-305) -/

/-- `SELECT image_id FROM assignments WHERE participant_id=? ORDER BY ord ASC`
(`get_assigned_image_ids`, lines 260-263). -/
def get_assigned_image_ids (db : DB) (pid : String) : List Nat :=
  (sortBy (fun a b => a.ord < b.ord)
    (db.assignments.filter (fun a => a.participant_id = pid))).map
      (fun a => a.image_id)

/-- `SELECT DISTINCT category FROM images ORDER BY category ASC` and its two
siblings (`fetch_distinct_axes`, lines 273-284). -/
def distinctCats (images : List ImageRow) : List Int :=
  sortBy (fun a b => a < b) (dedupFirst (images.map (fun r => r.category)))

def distinctRess (images : List ImageRow) : List String :=
  sortBy (fun a b => decide (a < b)) (dedupFirst (images.map (fun r => r.resolution)))

def distinctDists (images : List ImageRow) : List Int :=
  sortBy (fun a b => a < b) (dedupFirst (images.map (fun r => r.distortion)))

/-- `strata.setdefault(key, []).append(entry)` (line 301): append the entry at
the end of the key's list, creating the key at the end of the dict order if
absent. -/
def strataAppend (k : Key) (e : Entry) : Strata → Strata
  | [] => [(k, [e])]
  | (k', es) :: rest =>
      if k' = k then (k', es ++ [e]) :: rest
      else (k', es) :: strataAppend k e rest

/-- Python dict lookup `strata.get(key, [])` (first entry with the key). -/
def lookupStratum (k : Key) : Strata → List Entry
  | [] => []
  | (k', es) :: rest => if k' = k then es else lookupStratum k rest

/-- Replace the value stored at key `k` (in-place list mutation through the
dict reference); identity when the key is absent. -/
def setStratum (k : Key) (v : List Entry) : Strata → Strata
  | [] => []
  | (k', es) :: rest =>
      if k' = k then (k', v) :: rest
      else (k', es) :: setStratum k v rest

/-- The row set of `SELECT ... FROM images WHERE assigned_count < R_TARGET`
(line 293-297), in table order. -/
def availRows (images : List ImageRow) : List ImageRow :=
  images.filter (fun r => decide (r.assigned_count < R_TARGET))

/-- The ids of the available rows, in table order. -/
def availIds (images : List ImageRow) : List Nat :=
  (availRows images).map (fun r => r.image_id)

/-- `fetch_available_by_strata` (lines 291-305): scan
`SELECT ... FROM images WHERE assigned_count < R_TARGET` in table order,
group by stratum key, then stably sort each group by `assigned_count`
ascending. -/
def fetch_available_by_strata (images : List ImageRow) : Strata :=
  (List.foldl
      (fun s r => strataAppend (keyOf r) (r.image_id, r.assigned_count) s)
      []
      (availRows images)).map
    (fun p => (p.1, sortBy (fun a b => a.2 < b.2) p.2))

/-! ### The allocator (app5_fixed.py `assign_images_for_participant`) -/

/-- The triple loop `for cat in cats: for res in ress: for dist in dists`
(lines 337-339) enumerating the cross product of the distinct axes. -/
def combosOf (cats : List Int) (ress : List String) (dists : List Int) :
    List Key :=
  cats.flatMap (fun c => ress.flatMap (fun r => dists.map (fun d => (c, r, d))))

/-- One iteration of the coverage loop body (lines 340-345): look up the
stratum's candidate list, pop its first `min COVER_M len` entries, append
their ids to the accumulated `cover_ids`. -/
def coverStep (acc : List Nat × Strata) (k : Key) : List Nat × Strata :=
  let cands := lookupStratum k acc.2
  let take := min COVER_M cands.length
  (acc.1 ++ (cands.take take).map Prod.fst,
   setStratum k (cands.drop take) acc.2)

/-- The combos enumerated by the coverage loop for a given catalog. -/
def allCombos (images : List ImageRow) : List Key :=
  combosOf (distinctCats images) (distinctRess images) (distinctDists images)

/-- The whole coverage pass: `cover_ids` plus the mutated `strata` dict. -/
def coverResult (images : List ImageRow) : List Nat × Strata :=
  (allCombos images).foldl coverStep ([], fetch_available_by_strata images)

/-- The fill-pass pool (lines 350-354): all entries remaining in the strata
dict, in dict order, whose image id is not already chosen. -/
def fillPool (strata : Strata) (chosen : List Nat) : List Entry :=
  (strata.flatMap (fun p => p.2)).filter (fun e => decide (e.1 ∉ chosen))

/-- The selection logic of `assign_images_for_participant` (lines 333-357):
coverage pass, dedup, then the fill pass topping up to `K_PER_PERSON`
preferring the least-exposed pool entries. -/
def selectChosen (images : List ImageRow) : List Nat :=
  let cover := coverResult images
  let chosen := dedupFirst cover.1
  if chosen.length < K_PER_PERSON then
    let pool := sortBy (fun a b => a.2 < b.2) (fillPool cover.2 chosen)
    chosen ++ (pool.take (K_PER_PERSON - chosen.length)).map Prod.fst
  else chosen

/-- The assignment rows built from `enumerate(chosen)` (line 371). -/
def rowsOf (pid : String) (ids : List Nat) : List AssignmentRow :=
  ids.enum.map (fun p => ⟨pid, p.2, p.1⟩)

/-- `INSERT OR IGNORE INTO assignments ...` for one row: skipped when a row
with the same `(participant_id, image_id)` primary key already exists. -/
def insertIgnore (rows : List AssignmentRow) (r : AssignmentRow) :
    List AssignmentRow :=
  if rows.any (fun x =>
      x.participant_id = r.participant_id ∧ x.image_id = r.image_id) then rows
  else rows ++ [r]

def insertIgnoreAll (rows : List AssignmentRow) (new : List AssignmentRow) :
    List AssignmentRow :=
  new.foldl insertIgnore rows

/-- `UPDATE images SET assigned_count = assigned_count + 1 WHERE image_id = ?`
(lines 374-377), executed once per chosen id. -/
def bumpCount (id : Nat) (imgs : List ImageRow) : List ImageRow :=
  imgs.map (fun r =>
    if r.image_id = id then { r with assigned_count := r.assigned_count + 1 }
    else r)

def bumpAll (imgs : List ImageRow) (ids : List Nat) : List ImageRow :=
  ids.foldl (fun acc id => bumpCount id acc) imgs

/-- `assign_images_for_participant` (lines 308-385).  Returns the new
database state together with the `st.warning` flag (`true` iff the shortage
warning of lines 359-363 fired).  The early idempotency guard (lines
318-320) returns with no mutation and no warning. -/
def assign_images_for_participant (shuffle : List Nat → List Nat)
    (pid : String) (db : DB) : DB × Bool :=
  let existing := get_assigned_image_ids db pid
  if K_PER_PERSON ≤ existing.length then (db, false)
  else
    let chosen := selectChosen db.images
    let warned := chosen.length < K_PER_PERSON
    let shuffled := shuffle chosen
    (⟨bumpAll db.images shuffled,
      insertIgnoreAll db.assignments (rowsOf pid shuffled)⟩, warned)

/-- The rating page blocks with `st.error` + `st.stop` when the participant
has an empty assignment (app5_fixed.py lines 593-596). -/
def render_rating_halts (db : DB) (pid : String) : Bool :=
  (get_assigned_image_ids db pid).length = 0

/-- Modelled from the spec (§4.1): the operation
`get_available_in_stratum(category, resolution, distortion, cap)` is
specified to return the stratum's images with `exposure_count < cap`
"ordered by exposure_count ascending then identity ascending (deterministic
tie-break)".  This definition follows the spec's words; it is compared
against the code's `fetch_available_by_strata` for claim C9. -/
def specAvailableInStratum (images : List ImageRow) (k : Key) (cap : Nat) :
    List Entry :=
  sortBy (fun a b => a.2 < b.2 ∨ (a.2 = b.2 ∧ a.1 < b.1))
    ((images.filter
        (fun r => decide (r.assigned_count < cap ∧ keyOf r = k))).map
      (fun r => (r.image_id, r.assigned_count)))

/-! ### PostgreSQL plan variant (app_pg.py lines 224-253) -/

/-- The single-row `slot_counter` table. -/
structure PgState where
  next_slot : Int
deriving DecidableEq, Repr

/-- `allocate_next_slot(p_total)` (app_pg.py lines 224-246): for
`p_total <= 0` return 1 without touching the counter; otherwise return the
current counter and store `(current % p_total) + 1`.  PostgreSQL's `%` on
integers truncates toward zero, which is `Int.tmod`. -/
def allocate_next_slot (p_total : Int) (s : PgState) : Int × PgState :=
  if p_total ≤ 0 then (1, s)
  else (s.next_slot, ⟨Int.tmod s.next_slot p_total + 1⟩)

/-- One row of the precomputed `assignment_plan` table. -/
structure PlanRow where
  slot : Int
  image_id : Nat
  ord : Nat
deriving DecidableEq, Repr

/-- `SELECT image_id FROM assignment_plan WHERE slot=%s ORDER BY ord ASC`
(`get_plan_image_ids_for_slot`, app_pg.py lines 248-253). -/
def get_plan_image_ids_for_slot (plan : List PlanRow) (slot : Int) :
    List Nat :=
  (sortBy (fun a b => a.ord < b.ord)
    (plan.filter (fun r => r.slot = slot))).map (fun r => r.image_id)

/-- The slot handed to the `n`-th registrant (0-based) when the counter
starts at `s0`: iterate `allocate_next_slot` and read the returned value. -/
def pgStateAfter (p_total : Int) (s0 : PgState) : Nat → PgState
  | 0 => s0
  | n + 1 => (allocate_next_slot p_total (pgStateAfter p_total s0 n)).2

def slotOfRegistrant (p_total : Int) (s0 : PgState) (n : Nat) : Int :=
  (allocate_next_slot p_total (pgStateAfter p_total s0 n)).1

/-! ### Verification helper definitions -/

/-- All entries stored in the strata dict, in dict order. -/
def allEntries (s : Strata) : List Entry := s.flatMap (fun p => p.2)

/-- The ids of all entries stored in the strata dict, in dict order. -/
def allIds (s : Strata) : List Nat := (allEntries s).map Prod.fst

/-- The keys of the strata dict, in dict order. -/
def strataKeys (s : Strata) : List Key := s.map Prod.fst

/-- A sequential (non-concurrent) test run: a list of allocator invocations,
each with its own shuffle, executed in order. -/
def runAll (runs : List ((List Nat → List Nat) × String)) (db : DB) : DB :=
  runs.foldl (fun d pr => (assign_images_for_participant pr.1 pr.2 d).1) db

/-! ### Concrete states used by witnesses and counterexamples -/

/-- A one-image catalog with no assignments yet. -/
def oneImageDB : DB := ⟨[⟨0, 0, "r", 0, 0⟩], []⟩

/-- Two images in the same stratum, both unexposed, stored in decreasing id
order (table order `[1, 0]`). -/
def twoRowCatalog : List ImageRow := [⟨1, 0, "r", 0, 0⟩, ⟨0, 0, "r", 0, 0⟩]

/-- 502 images spread over 251 strata (two images per category), all
unexposed: the coverage pass alone yields `251 * COVER_M = 502 > K_PER_PERSON`
candidates. -/
def bigCatalog : List ImageRow :=
  (List.range 502).map (fun i => ⟨i, Int.ofNat (i / 2), "r", 0, 0⟩)

/-- A state in which participant "p" already holds `K_PER_PERSON` assignment
rows. -/
def fullDB : DB := ⟨[], (List.range K_PER_PERSON).map (fun i => ⟨"p", i, i⟩)⟩

/-- The grouping fold over the available rows (the loop of lines 299-301). -/
def groupFold (rows : List ImageRow) (s : Strata) : Strata :=
  rows.foldl (fun s r => strataAppend (keyOf r) (r.image_id, r.assigned_count) s) s

/-- The per-group sort stage (lines 303-304). -/
def sortGroups (s : Strata) : Strata :=
  s.map (fun p => (p.1, sortBy (fun a b => a.2 < b.2) p.2))

/-- Adding `n` to a row's exposure counter (the effect of `n` increment
statements targeting the row). -/
def addCount (n : Nat) (r : ImageRow) : ImageRow :=
  { r with assigned_count := r.assigned_count + n }

/-! ## Lemmas about the generic list helpers -/

theorem insertBy_perm (lt : α → α → Bool) (e : α) (l : List α) :
    (insertBy lt e l).Perm (e :: l) := by
  induction l with
  | nil => exact List.Perm.refl _
  | cons f fs ih =>
      simp only [insertBy]
      split
      · exact ((ih.cons f).trans (List.Perm.swap e f fs))
      · exact List.Perm.refl _

theorem sortBy_perm (lt : α → α → Bool) (l : List α) :
    (sortBy lt l).Perm l := by
  induction l with
  | nil => exact List.Perm.refl _
  | cons e es ih => exact (insertBy_perm lt e (sortBy lt es)).trans (ih.cons e)

theorem sortBy_length (lt : α → α → Bool) (l : List α) :
    (sortBy lt l).length = l.length :=
  (sortBy_perm lt l).length_eq

/-- Insertion with the strict comparison on a `Nat` key preserves sortedness
with respect to the reflexive key order. -/
theorem insertBy_key_sorted (key : α → Nat) (e : α) (l : List α)
    (h : l.Pairwise (fun a b => key a ≤ key b)) :
    (insertBy (fun a b => decide (key a < key b)) e l).Pairwise
      (fun a b => key a ≤ key b) := by
  induction l with
  | nil => simp [insertBy]
  | cons f fs ih =>
      rcases List.pairwise_cons.mp h with ⟨hf, hfs⟩
      by_cases hlt : key f < key e
      · simp only [insertBy, if_pos (decide_eq_true hlt)]
        refine List.pairwise_cons.mpr ⟨?_, ih hfs⟩
        intro a ha
        have hm := (insertBy_perm (fun a b => decide (key a < key b)) e fs).mem_iff.mp ha
        rcases List.mem_cons.mp hm with rfl | ha'
        · exact Nat.le_of_lt hlt
        · exact hf a ha'
      · simp only [insertBy,
          if_neg (fun hc => hlt (of_decide_eq_true hc))]
        refine List.pairwise_cons.mpr ⟨?_, h⟩
        intro a ha
        rcases List.mem_cons.mp ha with rfl | ha'
        · exact Nat.le_of_not_lt hlt
        · exact Nat.le_trans (Nat.le_of_not_lt hlt) (hf a ha')

theorem sortBy_key_sorted (key : α → Nat) (l : List α) :
    (sortBy (fun a b => decide (key a < key b)) l).Pairwise
      (fun a b => key a ≤ key b) := by
  induction l with
  | nil => simp [sortBy]
  | cons e es ih => exact insertBy_key_sorted key e _ ih

theorem mem_dedupFirstAux [DecidableEq α] {x : α} {l seen : List α} :
    x ∈ dedupFirstAux seen l ↔ x ∈ l ∧ x ∉ seen := by
  induction l generalizing seen with
  | nil => simp [dedupFirstAux]
  | cons y ys ih =>
      by_cases hy : y ∈ seen
      · simp only [dedupFirstAux, if_pos hy]
        rw [ih]
        constructor
        · rintro ⟨hx, hns⟩
          exact ⟨List.mem_cons_of_mem _ hx, hns⟩
        · rintro ⟨hx, hns⟩
          rcases List.mem_cons.mp hx with rfl | hx'
          · exact absurd hy hns
          · exact ⟨hx', hns⟩
      · simp only [dedupFirstAux, if_neg hy]
        constructor
        · intro hm
          rcases List.mem_cons.mp hm with rfl | hm'
          · exact ⟨List.mem_cons_self x ys, hy⟩
          · rcases ih.mp hm' with ⟨hx, hns⟩
            exact ⟨List.mem_cons_of_mem _ hx,
              fun hc => hns (List.mem_cons_of_mem _ hc)⟩
        · rintro ⟨hx, hns⟩
          rcases List.mem_cons.mp hx with rfl | hx'
          · exact List.mem_cons_self x _
          · by_cases hxy : x = y
            · exact hxy ▸ List.mem_cons_self x _
            · refine List.mem_cons_of_mem _ (ih.mpr ⟨hx', ?_⟩)
              intro hc
              rcases List.mem_cons.mp hc with h | h
              · exact hxy h
              · exact hns h

theorem mem_dedupFirst [DecidableEq α] {x : α} {l : List α} :
    x ∈ dedupFirst l ↔ x ∈ l := by
  simp [dedupFirst, mem_dedupFirstAux]

theorem dedupFirstAux_nodup [DecidableEq α] (l seen : List α) :
    (dedupFirstAux seen l).Nodup := by
  induction l generalizing seen with
  | nil => simp [dedupFirstAux]
  | cons y ys ih =>
      by_cases hy : y ∈ seen
      · simpa only [dedupFirstAux, if_pos hy] using ih seen
      · simp only [dedupFirstAux, if_neg hy]
        refine List.Nodup.cons ?_ (ih (y :: seen))
        intro hc
        exact (mem_dedupFirstAux.mp hc).2 (List.mem_cons_self y seen)

theorem dedupFirst_nodup [DecidableEq α] (l : List α) :
    (dedupFirst l).Nodup := dedupFirstAux_nodup l []

theorem dedupFirstAux_eq_self [DecidableEq α] {l seen : List α}
    (hd : l.Nodup) (hs : ∀ x ∈ l, x ∉ seen) : dedupFirstAux seen l = l := by
  induction l generalizing seen with
  | nil => rfl
  | cons y ys ih =>
      simp only [dedupFirstAux, if_neg (hs y (List.mem_cons_self y ys))]
      congr 1
      refine ih (List.Nodup.of_cons hd) ?_
      intro x hx hc
      rcases List.mem_cons.mp hc with rfl | hc'
      · exact (List.nodup_cons.mp hd).1 hx
      · exact hs x (List.mem_cons_of_mem _ hx) hc'

theorem dedupFirst_eq_self [DecidableEq α] {l : List α} (hd : l.Nodup) :
    dedupFirst l = l :=
  dedupFirstAux_eq_self hd (by simp)

/-! ## Lemmas about the strata dictionary -/

theorem lookupStratum_strataAppend (k k' : Key) (e : Entry) (s : Strata) :
    lookupStratum k (strataAppend k' e s)
      = if k' = k then lookupStratum k s ++ [e] else lookupStratum k s := by
  induction s with
  | nil =>
      by_cases h : k' = k
      · simp [strataAppend, lookupStratum, h]
      · simp [strataAppend, lookupStratum, h]
  | cons p rest ih =>
      obtain ⟨k₀, es⟩ := p
      by_cases h0 : k₀ = k'
      · subst h0
        by_cases h : k₀ = k
        · simp only [strataAppend, if_pos rfl, lookupStratum, if_pos h]
        · simp only [strataAppend, if_pos rfl, lookupStratum, if_neg h,
            if_neg (fun hc : k₀ = k => h hc)]
      · by_cases h : k₀ = k
        · subst h
          have h1 : k' ≠ k₀ := fun hc => h0 hc.symm
          simp [strataAppend, lookupStratum, h0, h1]
        · simp only [strataAppend, if_neg h0, lookupStratum, if_neg h]
          exact ih

theorem allEntries_strataAppend (k : Key) (e : Entry) (s : Strata) :
    (allEntries (strataAppend k e s)).Perm (e :: allEntries s) := by
  induction s with
  | nil => simp [strataAppend, allEntries]
  | cons p rest ih =>
      obtain ⟨k₀, es⟩ := p
      by_cases h : k₀ = k
      · simp only [strataAppend, if_pos h, allEntries, List.flatMap_cons]
        rw [List.append_assoc]
        simp only [List.singleton_append]
        exact List.perm_middle
      · simp only [strataAppend, if_neg h, allEntries, List.flatMap_cons]
        refine List.Perm.trans
          (List.Perm.append_left es (by simpa [allEntries] using ih)) ?_
        exact List.perm_middle

theorem strataKeys_strataAppend_of_mem {k : Key} (e : Entry) {s : Strata}
    (h : k ∈ strataKeys s) : strataKeys (strataAppend k e s) = strataKeys s := by
  induction s with
  | nil => simp [strataKeys] at h
  | cons p rest ih =>
      obtain ⟨k₀, es⟩ := p
      by_cases h0 : k₀ = k
      · simp [strataAppend, strataKeys, h0]
      · have hk : k ∈ strataKeys rest := by
          rcases List.mem_cons.mp h with h' | h'
          · exact absurd h'.symm h0
          · exact h'
        have hrw := ih hk
        simp only [strataKeys] at hrw
        simp only [strataAppend, if_neg h0, strataKeys, List.map_cons, hrw]

theorem strataKeys_strataAppend_of_not_mem {k : Key} (e : Entry) {s : Strata}
    (h : k ∉ strataKeys s) :
    strataKeys (strataAppend k e s) = strataKeys s ++ [k] := by
  induction s with
  | nil => simp [strataAppend, strataKeys]
  | cons p rest ih =>
      obtain ⟨k₀, es⟩ := p
      have h0 : k₀ ≠ k := by
        intro hc
        exact h (by simp [strataKeys, hc])
      have hrest : k ∉ strataKeys rest := by
        intro hc
        exact h (by simp [strataKeys] at hc ⊢; right; exact hc)
      have hrw := ih hrest
      simp only [strataKeys] at hrw
      simp only [strataAppend, if_neg h0, strataKeys, List.map_cons, hrw,
        List.cons_append]

theorem strataKeys_nodup_strataAppend {k : Key} (e : Entry) {s : Strata}
    (h : (strataKeys s).Nodup) : (strataKeys (strataAppend k e s)).Nodup := by
  by_cases hk : k ∈ strataKeys s
  · rwa [strataKeys_strataAppend_of_mem e hk]
  · rw [strataKeys_strataAppend_of_not_mem e hk]
    simp only [List.nodup_append, List.nodup_cons]
    exact ⟨h, by simp, by simpa [List.disjoint_left] using hk⟩

theorem mem_strataKeys_strataAppend {k k' : Key} {e : Entry} {s : Strata}
    (h : k ∈ strataKeys (strataAppend k' e s)) :
    k ∈ strataKeys s ∨ k = k' := by
  by_cases hk : k' ∈ strataKeys s
  · rw [strataKeys_strataAppend_of_mem e hk] at h
    exact Or.inl h
  · rw [strataKeys_strataAppend_of_not_mem e hk] at h
    rcases List.mem_append.mp h with h' | h'
    · exact Or.inl h'
    · exact Or.inr (by simpa using h')

/-! ## Lemmas about the grouping fold of `fetch_available_by_strata` -/

theorem lookupStratum_groupFold (k : Key) (rows : List ImageRow) (s : Strata) :
    lookupStratum k (groupFold rows s)
      = lookupStratum k s
        ++ (rows.filter (fun r => decide (keyOf r = k))).map
            (fun r => (r.image_id, r.assigned_count)) := by
  induction rows generalizing s with
  | nil => simp [groupFold]
  | cons r rs ih =>
      simp only [groupFold, List.foldl_cons]
      rw [show List.foldl _ (strataAppend (keyOf r) (r.image_id, r.assigned_count) s) rs
            = groupFold rs (strataAppend (keyOf r) (r.image_id, r.assigned_count) s) from rfl,
        ih, lookupStratum_strataAppend]
      by_cases h : keyOf r = k
      · simp [h]
      · simp [h]

theorem allEntries_groupFold (rows : List ImageRow) (s : Strata) :
    (allEntries (groupFold rows s)).Perm
      (allEntries s ++ rows.map (fun r => (r.image_id, r.assigned_count))) := by
  induction rows generalizing s with
  | nil => simp [groupFold]
  | cons r rs ih =>
      simp only [groupFold, List.foldl_cons, List.map_cons]
      refine List.Perm.trans (ih _) ?_
      refine List.Perm.trans
        (List.Perm.append_right _ (allEntries_strataAppend _ _ s)) ?_
      simp only [List.cons_append]
      exact List.perm_middle.symm

theorem strataKeys_nodup_groupFold (rows : List ImageRow) (s : Strata)
    (h : (strataKeys s).Nodup) : (strataKeys (groupFold rows s)).Nodup := by
  induction rows generalizing s with
  | nil => exact h
  | cons r rs ih =>
      simp only [groupFold, List.foldl_cons]
      exact ih _ (strataKeys_nodup_strataAppend _ h)

theorem mem_strataKeys_groupFold {k : Key} {rows : List ImageRow} {s : Strata}
    (h : k ∈ strataKeys (groupFold rows s)) :
    k ∈ strataKeys s ∨ ∃ r ∈ rows, keyOf r = k := by
  induction rows generalizing s with
  | nil => exact Or.inl h
  | cons r rs ih =>
      simp only [groupFold, List.foldl_cons] at h
      rcases ih h with h' | ⟨r', hr', hk'⟩
      · rcases mem_strataKeys_strataAppend h' with h'' | rfl
        · exact Or.inl h''
        · exact Or.inr ⟨r, List.mem_cons_self r rs, rfl⟩
      · exact Or.inr ⟨r', List.mem_cons_of_mem _ hr', hk'⟩

theorem fetch_eq_sortGroups_groupFold (images : List ImageRow) :
    fetch_available_by_strata images = sortGroups (groupFold (availRows images) []) := rfl

theorem lookupStratum_sortGroups (k : Key) (s : Strata) :
    lookupStratum k (sortGroups s)
      = sortBy (fun a b => a.2 < b.2) (lookupStratum k s) := by
  induction s with
  | nil => simp [sortGroups, lookupStratum, sortBy]
  | cons p rest ih =>
      obtain ⟨k₀, es⟩ := p
      by_cases h : k₀ = k
      · simp [sortGroups, lookupStratum, h]
      · simpa [sortGroups, lookupStratum, h] using ih

theorem allEntries_sortGroups (s : Strata) :
    (allEntries (sortGroups s)).Perm (allEntries s) := by
  induction s with
  | nil => simp [sortGroups, allEntries]
  | cons p rest ih =>
      obtain ⟨k₀, es⟩ := p
      simp only [sortGroups, allEntries, List.map_cons, List.flatMap_cons]
      exact List.Perm.append (sortBy_perm _ es) (by simpa [sortGroups, allEntries] using ih)

theorem strataKeys_sortGroups (s : Strata) :
    strataKeys (sortGroups s) = strataKeys s := by
  simp [sortGroups, strataKeys, List.map_map, Function.comp]

/-! ## Lemmas about `setStratum` and the coverage pass -/

theorem setStratum_of_not_mem {k : Key} (v : List Entry) {s : Strata}
    (h : k ∉ strataKeys s) : setStratum k v s = s := by
  induction s with
  | nil => rfl
  | cons p rest ih =>
      obtain ⟨k₀, es⟩ := p
      have h0 : k₀ ≠ k := fun hc => h (by simp [strataKeys, hc])
      have hrest : k ∉ strataKeys rest := fun hc => h (by
        simp only [strataKeys, List.map_cons, List.mem_cons]
        exact Or.inr hc)
      simp [setStratum, h0, ih hrest]

theorem lookupStratum_of_not_mem {k : Key} {s : Strata}
    (h : k ∉ strataKeys s) : lookupStratum k s = [] := by
  induction s with
  | nil => rfl
  | cons p rest ih =>
      obtain ⟨k₀, es⟩ := p
      have h0 : k₀ ≠ k := fun hc => h (by simp [strataKeys, hc])
      have hrest : k ∉ strataKeys rest := fun hc => h (by
        simp only [strataKeys, List.map_cons, List.mem_cons]
        exact Or.inr hc)
      simp [lookupStratum, h0, ih hrest]

theorem lookupStratum_setStratum_self {k : Key} (v : List Entry) {s : Strata}
    (h : k ∈ strataKeys s) : lookupStratum k (setStratum k v s) = v := by
  induction s with
  | nil => simp [strataKeys] at h
  | cons p rest ih =>
      obtain ⟨k₀, es⟩ := p
      by_cases h0 : k₀ = k
      · simp [setStratum, lookupStratum, h0]
      · have hrest : k ∈ strataKeys rest := by
          rcases List.mem_cons.mp h with h' | h'
          · exact absurd h'.symm h0
          · exact h'
        simp [setStratum, lookupStratum, h0, ih hrest]

theorem lookupStratum_setStratum_ne {k k' : Key} (v : List Entry) (s : Strata)
    (h : k' ≠ k) : lookupStratum k (setStratum k' v s) = lookupStratum k s := by
  induction s with
  | nil => rfl
  | cons p rest ih =>
      obtain ⟨k₀, es⟩ := p
      by_cases h0 : k₀ = k'
      · subst h0
        simp [setStratum, lookupStratum, h]
      · by_cases h1 : k₀ = k
        · subst h1
          simp [setStratum, lookupStratum, h0]
        · simp [setStratum, lookupStratum, h0, h1, ih]

theorem strataKeys_setStratum (k : Key) (v : List Entry) (s : Strata) :
    strataKeys (setStratum k v s) = strataKeys s := by
  induction s with
  | nil => rfl
  | cons p rest ih =>
      obtain ⟨k₀, es⟩ := p
      by_cases h0 : k₀ = k
      · simp [setStratum, strataKeys, h0]
      · simp only [setStratum, if_neg h0, strataKeys, List.map_cons]
        simp only [strataKeys] at ih
        rw [ih]

theorem take_min_length (l : List α) (m : Nat) :
    l.take (min m l.length) = l.take m := by
  rcases Nat.le_total m l.length with h | h
  · rw [Nat.min_eq_left h]
  · rw [Nat.min_eq_right h, List.take_length, List.take_of_length_le h]

theorem drop_min_length (l : List α) (m : Nat) :
    l.drop (min m l.length) = l.drop m := by
  rcases Nat.le_total m l.length with h | h
  · rw [Nat.min_eq_left h]
  · rw [Nat.min_eq_right h, List.drop_length, Eq.comm, List.drop_eq_nil_iff]
    exact h

theorem setStratum_drop_perm (k : Key) (t : Nat) (s : Strata) :
    (((lookupStratum k s).take t).map Prod.fst
        ++ allIds (setStratum k ((lookupStratum k s).drop t) s)).Perm
      (allIds s) := by
  induction s with
  | nil => simp [lookupStratum, setStratum, allIds, allEntries]
  | cons p rest ih =>
      obtain ⟨k₀, es⟩ := p
      by_cases h : k₀ = k
      · subst h
        have hl : lookupStratum k₀ ((k₀, es) :: rest) = es := by
          simp [lookupStratum]
        rw [hl]
        have hs : setStratum k₀ (es.drop t) ((k₀, es) :: rest)
            = (k₀, es.drop t) :: rest := by simp [setStratum]
        rw [hs]
        simp only [allIds, allEntries, List.flatMap_cons, List.map_append]
        rw [← List.append_assoc, ← List.map_append, List.take_append_drop]
      · have hl : lookupStratum k ((k₀, es) :: rest) = lookupStratum k rest := by
          simp [lookupStratum, h]
        rw [hl]
        have hs : setStratum k ((lookupStratum k rest).drop t) ((k₀, es) :: rest)
            = (k₀, es) :: setStratum k ((lookupStratum k rest).drop t) rest := by
          simp [setStratum, h]
        rw [hs]
        simp only [allIds, allEntries, List.flatMap_cons, List.map_append]
        rw [← List.append_assoc]
        refine List.Perm.trans
          (List.Perm.append_right _ (List.perm_append_comm)) ?_
        rw [List.append_assoc]
        exact List.Perm.append_left _ (by simpa [allIds, allEntries] using ih)

theorem coverFold_fst_append (ks : List Key) (acc : List Nat) (s : Strata) :
    (ks.foldl coverStep (acc, s)).1 = acc ++ (ks.foldl coverStep ([], s)).1
    ∧ (ks.foldl coverStep (acc, s)).2 = (ks.foldl coverStep ([], s)).2 := by
  induction ks generalizing acc s with
  | nil => simp
  | cons k ks ih =>
      simp only [List.foldl_cons, coverStep]
      rcases ih (acc ++ ((lookupStratum k s).take
          (min COVER_M (lookupStratum k s).length)).map Prod.fst)
        (setStratum k ((lookupStratum k s).drop
          (min COVER_M (lookupStratum k s).length)) s) with ⟨h1, h2⟩
      rcases ih (([] : List Nat) ++ ((lookupStratum k s).take
          (min COVER_M (lookupStratum k s).length)).map Prod.fst)
        (setStratum k ((lookupStratum k s).drop
          (min COVER_M (lookupStratum k s).length)) s) with ⟨h1', h2'⟩
      constructor
      · rw [h1, h1', List.nil_append, List.append_assoc]
      · rw [h2, h2']

theorem coverFold_perm (ks : List Key) (s : Strata) :
    ((ks.foldl coverStep ([], s)).1
        ++ allIds (ks.foldl coverStep ([], s)).2).Perm (allIds s) := by
  induction ks generalizing s with
  | nil => simp
  | cons k ks ih =>
      simp only [List.foldl_cons, coverStep, List.nil_append]
      set t := min COVER_M (lookupStratum k s).length with ht
      set pop := ((lookupStratum k s).take t).map Prod.fst with hpop
      set s₁ := setStratum k ((lookupStratum k s).drop t) s with hs₁
      rcases coverFold_fst_append ks pop s₁ with ⟨h1, h2⟩
      rw [h1, h2, List.append_assoc]
      refine List.Perm.trans (List.Perm.append_left pop (ih s₁)) ?_
      exact setStratum_drop_perm k t s

theorem coverFold_lookup_not_mem {c : Key} {ks : List Key} (acc : List Nat)
    (s : Strata) (h : c ∉ ks) :
    lookupStratum c (ks.foldl coverStep (acc, s)).2 = lookupStratum c s := by
  induction ks generalizing acc s with
  | nil => rfl
  | cons k ks ih =>
      have hkc : k ≠ c := fun hc => h (hc ▸ List.mem_cons_self k ks)
      have hks : c ∉ ks := fun hc => h (List.mem_cons_of_mem _ hc)
      simp only [List.foldl_cons, coverStep]
      rw [ih _ _ hks, lookupStratum_setStratum_ne _ _ hkc]

theorem coverFold_lookup_mem {c : Key} {ks : List Key} (acc : List Nat)
    (s : Strata) (hnd : ks.Nodup) (hc : c ∈ ks) :
    lookupStratum c (ks.foldl coverStep (acc, s)).2
      = (lookupStratum c s).drop COVER_M := by
  induction ks generalizing acc s with
  | nil => cases hc
  | cons k ks ih =>
      simp only [List.foldl_cons, coverStep]
      rcases List.mem_cons.mp hc with rfl | hc'
      · have hnotin : c ∉ ks := (List.nodup_cons.mp hnd).1
        rw [coverFold_lookup_not_mem _ _ hnotin]
        by_cases hk : c ∈ strataKeys s
        · rw [lookupStratum_setStratum_self _ hk, drop_min_length]
        · rw [setStratum_of_not_mem _ hk, lookupStratum_of_not_mem hk]
          simp
      · have hkc : k ≠ c := by
          rintro rfl
          exact (List.nodup_cons.mp hnd).1 hc'
        rw [ih _ _ (List.nodup_cons.mp hnd).2 hc',
          lookupStratum_setStratum_ne _ _ hkc]

theorem coverFold_take_mem {c : Key} {ks : List Key} (s : Strata)
    (hnd : ks.Nodup) (hc : c ∈ ks) :
    ∀ x ∈ ((lookupStratum c s).take COVER_M).map Prod.fst,
      x ∈ (ks.foldl coverStep ([], s)).1 := by
  induction ks generalizing s with
  | nil => cases hc
  | cons k ks ih =>
      intro x hx
      simp only [List.foldl_cons, coverStep, List.nil_append]
      set t := min COVER_M (lookupStratum k s).length with ht
      set pop := ((lookupStratum k s).take t).map Prod.fst with hpop
      set s₁ := setStratum k ((lookupStratum k s).drop t) s with hs₁
      rcases coverFold_fst_append ks pop s₁ with ⟨h1, _⟩
      rw [h1]
      rcases List.mem_cons.mp hc with rfl | hc'
      · refine List.mem_append.mpr (Or.inl ?_)
        rw [hpop, ht, take_min_length]
        exact hx
      · have hkc : k ≠ c := by
          rintro rfl
          exact (List.nodup_cons.mp hnd).1 hc'
        refine List.mem_append.mpr (Or.inr ?_)
        refine ih s₁ (List.nodup_cons.mp hnd).2 hc' x ?_
        rw [hs₁, lookupStratum_setStratum_ne _ _ hkc]
        exact hx

theorem strataKeys_coverFold (ks : List Key) (acc : List Nat) (s : Strata) :
    strataKeys (ks.foldl coverStep (acc, s)).2 = strataKeys s := by
  induction ks generalizing acc s with
  | nil => rfl
  | cons k ks ih =>
      simp only [List.foldl_cons, coverStep]
      rw [ih, strataKeys_setStratum]

/-! ## The availability view and the cross product of axes -/

theorem allIds_fetch_perm (images : List ImageRow) :
    (allIds (fetch_available_by_strata images)).Perm (availIds images) := by
  rw [fetch_eq_sortGroups_groupFold]
  refine List.Perm.trans
    (List.Perm.map Prod.fst (allEntries_sortGroups _)) ?_
  refine List.Perm.trans
    (List.Perm.map Prod.fst (allEntries_groupFold (availRows images) [])) ?_
  simp only [allEntries, List.flatMap_nil, List.nil_append, List.map_map]
  rw [show ((fun e : Entry => e.1) ∘ fun r : ImageRow => (r.image_id, r.assigned_count))
        = fun r : ImageRow => r.image_id from rfl]
  exact List.Perm.refl _

theorem coverResult_perm (images : List ImageRow) :
    ((coverResult images).1 ++ allIds (coverResult images).2).Perm
      (availIds images) :=
  (coverFold_perm _ _).trans (allIds_fetch_perm images)

theorem availIds_nodup {images : List ImageRow}
    (hn : (images.map (fun r => r.image_id)).Nodup) :
    (availIds images).Nodup :=
  List.Nodup.sublist
    (List.Sublist.map _ (List.filter_sublist images)) hn

theorem mem_availIds {images : List ImageRow} {x : Nat} :
    x ∈ availIds images
      ↔ ∃ r ∈ images, r.image_id = x ∧ r.assigned_count < R_TARGET := by
  simp only [availIds, availRows, List.mem_map, List.mem_filter,
    decide_eq_true_eq]
  constructor
  · rintro ⟨r, ⟨hr, hc⟩, rfl⟩
    exact ⟨r, hr, rfl, hc⟩
  · rintro ⟨r, hr, rfl, hc⟩
    exact ⟨r, ⟨hr, hc⟩, rfl⟩

theorem combosOf_eq_product (cats : List Int) (ress : List String)
    (dists : List Int) :
    combosOf cats ress dists = cats ×ˢ (ress ×ˢ dists) := by
  show _ = cats.product (ress.product dists)
  simp only [combosOf, List.product, List.map_flatMap, List.map_map]
  rfl

theorem allCombos_nodup (images : List ImageRow) :
    (allCombos images).Nodup := by
  rw [allCombos, combosOf_eq_product]
  refine List.Nodup.product ?_ (List.Nodup.product ?_ ?_)
  · exact ((sortBy_perm _ _).nodup_iff).mpr (dedupFirst_nodup _)
  · exact ((sortBy_perm _ _).nodup_iff).mpr (dedupFirst_nodup _)
  · exact ((sortBy_perm _ _).nodup_iff).mpr (dedupFirst_nodup _)

theorem keyOf_mem_allCombos {images : List ImageRow} {r : ImageRow}
    (hr : r ∈ images) : keyOf r ∈ allCombos images := by
  have hc : r.category ∈ distinctCats images := by
    rw [distinctCats]
    exact (sortBy_perm _ _).mem_iff.mpr
      (mem_dedupFirst.mpr (List.mem_map_of_mem _ hr))
  have hs : r.resolution ∈ distinctRess images := by
    rw [distinctRess]
    exact (sortBy_perm _ _).mem_iff.mpr
      (mem_dedupFirst.mpr (List.mem_map_of_mem _ hr))
  have hd : r.distortion ∈ distinctDists images := by
    rw [distinctDists]
    exact (sortBy_perm _ _).mem_iff.mpr
      (mem_dedupFirst.mpr (List.mem_map_of_mem _ hr))
  rw [allCombos, combosOf]
  refine List.mem_flatMap.mpr ⟨r.category, hc, ?_⟩
  refine List.mem_flatMap.mpr ⟨r.resolution, hs, ?_⟩
  exact List.mem_map.mpr ⟨r.distortion, hd, rfl⟩

/-- Every key of the strata dict returned by `fetch_available_by_strata` is
enumerated by the coverage loop's cross product. -/
theorem strataKeys_fetch_subset_combos {images : List ImageRow} {k : Key}
    (h : k ∈ strataKeys (fetch_available_by_strata images)) :
    k ∈ allCombos images := by
  rw [fetch_eq_sortGroups_groupFold, strataKeys_sortGroups] at h
  rcases mem_strataKeys_groupFold h with h' | ⟨r, hr, rfl⟩
  · simp [strataKeys] at h'
  · exact keyOf_mem_allCombos (List.mem_of_mem_filter hr)

theorem strataKeys_fetch_nodup (images : List ImageRow) :
    (strataKeys (fetch_available_by_strata images)).Nodup := by
  rw [fetch_eq_sortGroups_groupFold, strataKeys_sortGroups]
  exact strataKeys_nodup_groupFold _ _ (by simp [strataKeys])

/-! ## Characterization of the selection phase -/

/-- Under a well-formed catalog (unique image ids, as enforced by the
`image_id` primary key), the chosen list is duplicate-free, drawn from the
available (below-cap) images, and its length is `K_PER_PERSON` capped by the
available inventory — except that a coverage pass bigger than `K_PER_PERSON`
is passed through untruncated. -/
theorem selectChosen_spec {images : List ImageRow}
    (hn : (images.map (fun r => r.image_id)).Nodup) :
    (selectChosen images).Nodup
    ∧ (∀ x ∈ selectChosen images, x ∈ availIds images)
    ∧ (selectChosen images).length
        = max (coverResult images).1.length
            (min K_PER_PERSON (availIds images).length) := by
  have hperm := coverResult_perm images
  have havail : (availIds images).Nodup := availIds_nodup hn
  have hnodcr : ((coverResult images).1
      ++ allIds (coverResult images).2).Nodup :=
    (hperm.nodup_iff).mpr havail
  rcases List.nodup_append.mp hnodcr with ⟨hcov, hrest, hdisj⟩
  have hlen : (coverResult images).1.length
      + (allIds (coverResult images).2).length = (availIds images).length := by
    have := hperm.length_eq
    simpa [List.length_append] using this
  have hde : dedupFirst (coverResult images).1 = (coverResult images).1 :=
    dedupFirst_eq_self hcov
  have hfill : fillPool (coverResult images).2 (coverResult images).1
      = allEntries (coverResult images).2 := by
    rw [fillPool]
    refine List.filter_eq_self.mpr ?_
    intro e he
    have : e.1 ∈ allIds (coverResult images).2 :=
      List.mem_map_of_mem _ he
    simp only [decide_eq_true_eq]
    exact fun hc => hdisj hc this
  have hpoolperm : (sortBy (fun a b => a.2 < b.2)
        (allEntries (coverResult images).2)).Perm
      (allEntries (coverResult images).2) := sortBy_perm _ _
  have hpoolfst : ((sortBy (fun a b => a.2 < b.2)
        (allEntries (coverResult images).2)).map Prod.fst).Perm
      (allIds (coverResult images).2) := hpoolperm.map _
  by_cases hlt : (coverResult images).1.length < K_PER_PERSON
  · have hsel : selectChosen images
        = (coverResult images).1
          ++ ((sortBy (fun a b => a.2 < b.2)
                (allEntries (coverResult images).2)).take
              (K_PER_PERSON - (coverResult images).1.length)).map Prod.fst := by
      simp only [selectChosen, hde, hfill]
      rw [if_pos hlt]
    have htakemap : ∀ x ∈ ((sortBy (fun a b => a.2 < b.2)
          (allEntries (coverResult images).2)).take
        (K_PER_PERSON - (coverResult images).1.length)).map Prod.fst,
        x ∈ allIds (coverResult images).2 := by
      intro x hx
      have hsub : (((sortBy (fun a b => a.2 < b.2)
            (allEntries (coverResult images).2)).take
          (K_PER_PERSON - (coverResult images).1.length)).map Prod.fst).Sublist
          ((sortBy (fun a b => a.2 < b.2)
            (allEntries (coverResult images).2)).map Prod.fst) :=
        List.Sublist.map _ (List.take_sublist _ _)
      exact hpoolfst.mem_iff.mp (hsub.mem hx)
    refine ⟨?_, ?_, ?_⟩
    · rw [hsel]
      refine List.nodup_append.mpr ⟨hcov, ?_, ?_⟩
      · refine List.Nodup.sublist (List.Sublist.map _ (List.take_sublist _ _)) ?_
        exact (hpoolfst.nodup_iff).mpr hrest
      · intro x hx hc
        exact hdisj hx (htakemap x hc)
    · intro x hx
      rw [hsel] at hx
      rcases List.mem_append.mp hx with hx' | hx'
      · refine hperm.mem_iff.mp (List.mem_append.mpr (Or.inl hx'))
      · exact hperm.mem_iff.mp
          (List.mem_append.mpr (Or.inr (htakemap x hx')))
    · rw [hsel]
      have hplen : (sortBy (fun a b => a.2 < b.2)
            (allEntries (coverResult images).2)).length
          = (allIds (coverResult images).2).length := by
        rw [sortBy_length]
        simp [allIds]
      simp only [List.length_append, List.length_map, List.length_take, hplen]
      omega
  · have hsel : selectChosen images = (coverResult images).1 := by
      simp only [selectChosen, hde, hfill]
      rw [if_neg hlt]
    refine ⟨hsel ▸ hcov, ?_, ?_⟩
    · intro x hx
      rw [hsel] at hx
      exact hperm.mem_iff.mp (List.mem_append.mpr (Or.inl hx))
    · rw [hsel]
      omega

/-! ## Lemmas about the write phase of the allocator -/

theorem addCount_zero (r : ImageRow) : addCount 0 r = r := by
  cases r
  simp [addCount]

theorem bumpAll_eq_map (imgs : List ImageRow) (ids : List Nat) :
    bumpAll imgs ids
      = imgs.map (fun r => addCount (ids.count r.image_id) r) := by
  induction ids generalizing imgs with
  | nil =>
      simp only [bumpAll, List.foldl_nil, List.count_nil, addCount_zero]
      exact (List.map_id _).symm
  | cons i is ih =>
      show bumpAll (bumpCount i imgs) is = _
      rw [ih, bumpCount, List.map_map]
      refine List.map_congr_left ?_
      intro r _
      by_cases h : r.image_id = i
      · simp only [Function.comp, if_pos h, addCount]
        cases r with
        | mk a b c d e =>
          simp only at h
          subst h
          simp [List.count_cons, addCount]
          omega
      · simp only [Function.comp, if_neg h, addCount]
        cases r with
        | mk a b c d e =>
          simp only at h
          have hne : ¬ i = a := fun hc => h hc.symm
          have hcount : ((i :: is).count a) = is.count a := by
            simp [List.count_cons, hne]
          simp [hcount]

theorem bumpAll_map_image_id (imgs : List ImageRow) (ids : List Nat) :
    (bumpAll imgs ids).map (fun r => r.image_id)
      = imgs.map (fun r => r.image_id) := by
  rw [bumpAll_eq_map, List.map_map]
  rfl

theorem rowsOf_map_image_id (pid : String) (ids : List Nat) :
    (rowsOf pid ids).map (fun a => a.image_id) = ids := by
  rw [rowsOf, List.map_map]
  exact List.enum_map_snd ids

theorem rowsOf_map_ord (pid : String) (ids : List Nat) :
    (rowsOf pid ids).map (fun a => a.ord) = List.range ids.length := by
  rw [rowsOf, List.map_map]
  exact List.enum_map_fst ids

theorem rowsOf_length (pid : String) (ids : List Nat) :
    (rowsOf pid ids).length = ids.length := by
  simp [rowsOf]

theorem rowsOf_pid {pid : String} {ids : List Nat} {a : AssignmentRow}
    (h : a ∈ rowsOf pid ids) : a.participant_id = pid := by
  rcases List.mem_map.mp h with ⟨p, _, rfl⟩
  rfl

theorem rowsOf_filter_pid_self (pid : String) (ids : List Nat) :
    (rowsOf pid ids).filter (fun a => a.participant_id = pid)
      = rowsOf pid ids := by
  refine List.filter_eq_self.mpr ?_
  intro a ha
  simpa using rowsOf_pid ha

theorem rowsOf_filter_pid_ne {q pid : String} (ids : List Nat) (h : q ≠ pid) :
    (rowsOf pid ids).filter (fun a => a.participant_id = q) = [] := by
  refine List.filter_eq_nil_iff.mpr ?_
  intro a ha
  simp only [decide_eq_true_eq]
  rw [rowsOf_pid ha]
  exact fun hc => h hc.symm

theorem rowsOf_filter_image_count (pid : String) (ids : List Nat) (x : Nat) :
    ((rowsOf pid ids).filter (fun a => a.image_id = x)).length
      = ids.count x := by
  rw [← List.countP_eq_length_filter, rowsOf, List.countP_map,
    List.count_eq_countP]
  have h1 : List.countP
      ((fun a : AssignmentRow => decide (a.image_id = x))
        ∘ (fun p : Nat × Nat => (⟨pid, p.2, p.1⟩ : AssignmentRow))) ids.enum
      = List.countP ((fun n : Nat => decide (n = x)) ∘ Prod.snd) ids.enum := rfl
  rw [h1, ← List.countP_map, List.enum_map_snd]
  refine List.countP_congr ?_
  intro a _
  by_cases h : a = x <;> simp [h]

theorem get_assigned_nil {db : DB} {pid : String}
    (h : db.assignments.filter (fun a => a.participant_id = pid) = []) :
    get_assigned_image_ids db pid = [] := by
  rw [get_assigned_image_ids, h]
  rfl

theorem insertIgnoreAll_disjoint {base new : List AssignmentRow}
    (hbase : ∀ r ∈ new, ∀ b ∈ base,
      ¬ (b.participant_id = r.participant_id ∧ b.image_id = r.image_id))
    (hnew : new.Pairwise (fun x y =>
      ¬ (x.participant_id = y.participant_id ∧ x.image_id = y.image_id))) :
    insertIgnoreAll base new = base ++ new := by
  induction new generalizing base with
  | nil => simp [insertIgnoreAll]
  | cons r rs ih =>
      have hany : ¬ base.any (fun x =>
          x.participant_id = r.participant_id ∧ x.image_id = r.image_id)
            = true := by
        rw [List.any_eq_true]
        rintro ⟨b, hb, hc⟩
        exact hbase r (List.mem_cons_self r rs) b hb (by simpa using hc)
      show insertIgnoreAll (insertIgnore base r) rs = base ++ r :: rs
      rw [insertIgnore, if_neg hany]
      rcases List.pairwise_cons.mp hnew with ⟨hr, hrs⟩
      rw [ih ?_ hrs]
      · simp
      · intro q hq b hb
        rcases List.mem_append.mp hb with hb' | hb'
        · exact hbase q (List.mem_cons_of_mem _ hq) b hb'
        · have : b = r := by simpa using hb'
          subst this
          exact hr q hq

theorem rowsOf_pairwise_ne {pid : String} {ids : List Nat}
    (hnd : ids.Nodup) :
    (rowsOf pid ids).Pairwise (fun x y =>
      ¬ (x.participant_id = y.participant_id ∧ x.image_id = y.image_id)) := by
  have h1 : ((rowsOf pid ids).map (fun a => a.image_id)).Pairwise
      (fun a b => a ≠ b) := by
    rw [rowsOf_map_image_id]
    exact hnd
  have h2 := List.pairwise_map.mp h1
  exact h2.imp (fun h hc => h hc.2)

theorem assign_fresh {db : DB} {pid : String} {sh : List Nat → List Nat}
    (hperm : ∀ l, (sh l).Perm l)
    (hn : (db.images.map (fun r => r.image_id)).Nodup)
    (hfresh : db.assignments.filter (fun a => a.participant_id = pid) = []) :
    assign_images_for_participant sh pid db
      = (⟨bumpAll db.images (sh (selectChosen db.images)),
          db.assignments ++ rowsOf pid (sh (selectChosen db.images))⟩,
         decide ((selectChosen db.images).length < K_PER_PERSON)) := by
  have hex : get_assigned_image_ids db pid = [] := get_assigned_nil hfresh
  have hguard : ¬ K_PER_PERSON ≤ (get_assigned_image_ids db pid).length := by
    rw [hex]
    decide
  have hshnd : (sh (selectChosen db.images)).Nodup :=
    ((hperm _).nodup_iff).mpr (selectChosen_spec hn).1
  simp only [assign_images_for_participant, if_neg hguard]
  rw [insertIgnoreAll_disjoint ?_ (rowsOf_pairwise_ne hshnd)]
  intro q hq b hb hc
  have hbq : b.participant_id = pid := hc.1.trans (rowsOf_pid hq)
  have : b ∈ db.assignments.filter (fun a => a.participant_id = pid) :=
    List.mem_filter.mpr ⟨hb, by simpa using hbq⟩
  rw [hfresh] at this
  cases this

theorem assign_images_eq (sh : List Nat → List Nat) (pid : String) (db : DB) :
    (assign_images_for_participant sh pid db).1.images
      = if K_PER_PERSON ≤ (get_assigned_image_ids db pid).length then db.images
        else bumpAll db.images (sh (selectChosen db.images)) := by
  by_cases hg : K_PER_PERSON ≤ (get_assigned_image_ids db pid).length
  · simp only [assign_images_for_participant, if_pos hg]
  · simp only [assign_images_for_participant, if_neg hg]

theorem assign_map_image_id (sh : List Nat → List Nat) (pid : String)
    (db : DB) :
    ((assign_images_for_participant sh pid db).1.images).map
        (fun r => r.image_id)
      = db.images.map (fun r => r.image_id) := by
  rw [assign_images_eq]
  by_cases hg : K_PER_PERSON ≤ (get_assigned_image_ids db pid).length
  · rw [if_pos hg]
  · rw [if_neg hg, bumpAll_map_image_id]

theorem assign_preserves_ceiling {db : DB} {pid : String}
    {sh : List Nat → List Nat}
    (hn : (db.images.map (fun r => r.image_id)).Nodup)
    (hperm : ∀ l, (sh l).Perm l)
    (hceil : ∀ r ∈ db.images, r.assigned_count ≤ R_TARGET) :
    ∀ r ∈ (assign_images_for_participant sh pid db).1.images,
      r.assigned_count ≤ R_TARGET := by
  intro r hr
  rw [assign_images_eq] at hr
  by_cases hg : K_PER_PERSON ≤ (get_assigned_image_ids db pid).length
  · rw [if_pos hg] at hr
    exact hceil r hr
  · rw [if_neg hg, bumpAll_eq_map] at hr
    rcases List.mem_map.mp hr with ⟨r₀, hr₀, rfl⟩
    have hcnt : (sh (selectChosen db.images)).count r₀.image_id
        = (selectChosen db.images).count r₀.image_id :=
      (hperm _).count_eq _
    by_cases hm : r₀.image_id ∈ selectChosen db.images
    · have h1 : (selectChosen db.images).count r₀.image_id = 1 :=
        List.count_eq_one_of_mem (selectChosen_spec hn).1 hm
      have hx : r₀.image_id ∈ availIds db.images :=
        (selectChosen_spec hn).2.1 _ hm
      rcases mem_availIds.mp hx with ⟨r₂, hr₂, hid, hlt⟩
      have heq : r₂ = r₀ := List.inj_on_of_nodup_map hn hr₂ hr₀ hid
      subst heq
      simp only [addCount, hcnt, h1]
      omega
    · have h0 : (selectChosen db.images).count r₀.image_id = 0 :=
        List.count_eq_zero.mpr hm
      simp only [addCount, hcnt, h0, Nat.add_zero]
      exact hceil r₀ hr₀

theorem assign_increments {db : DB} {pid : String} {sh : List Nat → List Nat}
    (hn : (db.images.map (fun r => r.image_id)).Nodup)
    (hperm : ∀ l, (sh l).Perm l)
    (hg : ¬ K_PER_PERSON ≤ (get_assigned_image_ids db pid).length) :
    (assign_images_for_participant sh pid db).1.images
      = db.images.map (fun r =>
          if r.image_id ∈ selectChosen db.images
          then { r with assigned_count := r.assigned_count + 1 } else r) := by
  rw [assign_images_eq, if_neg hg, bumpAll_eq_map]
  refine List.map_congr_left ?_
  intro r _
  have hcnt : (sh (selectChosen db.images)).count r.image_id
      = (selectChosen db.images).count r.image_id :=
    (hperm _).count_eq _
  by_cases hm : r.image_id ∈ selectChosen db.images
  · rw [if_pos hm]
    have h1 : (selectChosen db.images).count r.image_id = 1 :=
      List.count_eq_one_of_mem (selectChosen_spec hn).1 hm
    simp [addCount, hcnt, h1]
  · rw [if_neg hm]
    have h0 : (selectChosen db.images).count r.image_id = 0 :=
      List.count_eq_zero.mpr hm
    simp [addCount, hcnt, h0]

theorem runAll_ceiling (runs : List ((List Nat → List Nat) × String)) :
    ∀ db : DB, (db.images.map (fun r => r.image_id)).Nodup →
      (∀ pr ∈ runs, ∀ l, ((pr.1) l).Perm l) →
      (∀ r ∈ db.images, r.assigned_count ≤ R_TARGET) →
      ∀ r ∈ (runAll runs db).images, r.assigned_count ≤ R_TARGET := by
  induction runs with
  | nil => exact fun db _ _ hceil => hceil
  | cons pr rest ih =>
      intro db hn hsh hceil
      have hpr := hsh pr (List.mem_cons_self pr rest)
      refine ih _ ?_ ?_ ?_
      · rw [assign_map_image_id]
        exact hn
      · exact fun q hq => hsh q (List.mem_cons_of_mem _ hq)
      · exact assign_preserves_ceiling hn hpr hceil

/-! ## Claim theorems -/

/-- C1: in any sequential run of allocator invocations over a well-formed
catalog (unique image ids) whose exposure counts start at or below
`R_TARGET`, no image's `assigned_count` ever exceeds `R_TARGET`; moreover a
single invocation only selects images whose `assigned_count` is strictly
below `R_TARGET`, and increments each selected image's count by exactly one
(leaving all other images untouched). -/
theorem c1_exposure_ceiling (db : DB)
    (runs : List ((List Nat → List Nat) × String))
    (hn : (db.images.map (fun r => r.image_id)).Nodup)
    (hsh : ∀ pr ∈ runs, ∀ l, ((pr.1) l).Perm l)
    (hinit : ∀ r ∈ db.images, r.assigned_count ≤ R_TARGET) :
    (∀ r ∈ (runAll runs db).images, r.assigned_count ≤ R_TARGET)
    ∧ (∀ x ∈ selectChosen db.images,
        ∃ r ∈ db.images, r.image_id = x ∧ r.assigned_count < R_TARGET)
    ∧ ∀ sh : List Nat → List Nat, (∀ l, (sh l).Perm l) →
        ∀ pid, ¬ K_PER_PERSON ≤ (get_assigned_image_ids db pid).length →
          (assign_images_for_participant sh pid db).1.images
            = db.images.map (fun r =>
                if r.image_id ∈ selectChosen db.images
                then { r with assigned_count := r.assigned_count + 1 }
                else r) := by
  refine ⟨runAll_ceiling runs db hn hsh hinit, ?_, ?_⟩
  · intro x hx
    exact mem_availIds.mp ((selectChosen_spec hn).2.1 x hx)
  · intro sh hp pid hg
    exact assign_increments hn hp hg

/-- Witness for C1 at a concrete one-image catalog and a one-call run. -/
theorem c1_exposure_ceiling_witness :
    (∀ r ∈ (runAll [(id, "p")] oneImageDB).images,
        r.assigned_count ≤ R_TARGET)
    ∧ (∀ x ∈ selectChosen oneImageDB.images,
        ∃ r ∈ oneImageDB.images, r.image_id = x ∧ r.assigned_count < R_TARGET)
    ∧ ∀ sh : List Nat → List Nat, (∀ l, (sh l).Perm l) →
        ∀ pid, ¬ K_PER_PERSON ≤ (get_assigned_image_ids oneImageDB pid).length →
          (assign_images_for_participant sh pid oneImageDB).1.images
            = oneImageDB.images.map (fun r =>
                if r.image_id ∈ selectChosen oneImageDB.images
                then { r with assigned_count := r.assigned_count + 1 }
                else r) :=
  c1_exposure_ceiling oneImageDB [(id, "p")] (by decide)
    (by
      intro pr hpr l
      rcases List.mem_singleton.mp hpr with rfl
      exact List.Perm.refl l)
    (by decide)

/-- C3 (amended): calling `assign` again is a no-op — same state, no catalog
mutation, no warning — whenever the participant already holds at least
`K_PER_PERSON` assignment rows; in particular, calling twice in that state
leaves the state fixed both times.  (The guard of lines 318-320 compares
against `K_PER_PERSON`, so a participant with a shorter assignment is
re-processed and the catalog is mutated, as the counterexample shows.) -/
theorem c3_idempotent_when_full (sh : List Nat → List Nat) (pid : String)
    (db : DB)
    (h : K_PER_PERSON ≤ (get_assigned_image_ids db pid).length) :
    assign_images_for_participant sh pid db = (db, false)
    ∧ assign_images_for_participant sh pid
        (assign_images_for_participant sh pid db).1
      = ((assign_images_for_participant sh pid db).1, false) := by
  have h1 : assign_images_for_participant sh pid db = (db, false) := by
    simp only [assign_images_for_participant, if_pos h]
  refine ⟨h1, ?_⟩
  rw [h1]
  exact h1

set_option maxRecDepth 100000 in
/-- Witness for the amended C3 at a state holding `K_PER_PERSON` rows. -/
theorem c3_idempotent_when_full_witness :
    K_PER_PERSON ≤ (get_assigned_image_ids fullDB "p").length
    ∧ (assign_images_for_participant id "p" fullDB = (fullDB, false)
      ∧ assign_images_for_participant id "p"
          (assign_images_for_participant id "p" fullDB).1
        = ((assign_images_for_participant id "p" fullDB).1, false)) :=
  ⟨by decide, c3_idempotent_when_full id "p" fullDB (by decide)⟩

/-- C3 counterexample: on a one-image catalog the first call realizes a short
assignment (1 < K_PER_PERSON), so the second call for the same participant is
NOT a no-op: it returns the identical assignment list but increments the
image's exposure count again (catalog mutation), refuting idempotency "for
every catalog state". -/
theorem c3_counterexample :
    get_assigned_image_ids
        (assign_images_for_participant id "p"
          (assign_images_for_participant id "p" oneImageDB).1).1 "p"
      = get_assigned_image_ids
          (assign_images_for_participant id "p" oneImageDB).1 "p"
    ∧ ((assign_images_for_participant id "p" oneImageDB).1.images).map
        (fun r => r.assigned_count) = [1]
    ∧ ((assign_images_for_participant id "p"
          (assign_images_for_participant id "p" oneImageDB).1).1.images).map
        (fun r => r.assigned_count) = [2]
    ∧ (assign_images_for_participant id "p"
          (assign_images_for_participant id "p" oneImageDB).1).1.images
        ≠ (assign_images_for_participant id "p" oneImageDB).1.images := by
  decide

/-! ## The exposure-count / ledger-row invariant (claim C2) -/

theorem runAll_count_inv (runs : List ((List Nat → List Nat) × String)) :
    ∀ db : DB, (db.images.map (fun r => r.image_id)).Nodup →
      (∀ pr ∈ runs, ∀ l, ((pr.1) l).Perm l) →
      ((runs.map Prod.snd).Nodup) →
      (∀ pr ∈ runs,
        db.assignments.filter (fun a => a.participant_id = pr.2) = []) →
      (∀ r ∈ db.images, r.assigned_count
        = (db.assignments.filter (fun a => a.image_id = r.image_id)).length) →
      ∀ r ∈ (runAll runs db).images, r.assigned_count
        = ((runAll runs db).assignments.filter
            (fun a => a.image_id = r.image_id)).length := by
  induction runs with
  | nil => exact fun db _ _ _ _ hinv => hinv
  | cons pr rest ih =>
      intro db hn hsh hpids hfresh hinv
      obtain ⟨sh, pid⟩ := pr
      have hperm : ∀ l, (sh l).Perm l :=
        hsh (sh, pid) (List.mem_cons_self _ rest)
      have hfr : db.assignments.filter (fun a => a.participant_id = pid) = [] :=
        hfresh (sh, pid) (List.mem_cons_self _ rest)
      have hstep := assign_fresh hperm hn hfr
      show ∀ r ∈ (runAll rest (assign_images_for_participant sh pid db).1).images, _
      refine ih _ ?_ ?_ ?_ ?_ ?_
      · rw [assign_map_image_id]
        exact hn
      · exact fun q hq => hsh q (List.mem_cons_of_mem _ hq)
      · have h := hpids
        simp only [List.map_cons] at h
        exact (List.nodup_cons.mp h).2
      · intro q hq
        rw [hstep]
        show (db.assignments ++ _).filter _ = _
        have hne : q.2 ≠ pid := by
          have h := hpids
          simp only [List.map_cons] at h
          have hnot := (List.nodup_cons.mp h).1
          intro hc
          exact hnot (hc ▸ List.mem_map_of_mem Prod.snd hq)
        rw [List.filter_append, hfresh q (List.mem_cons_of_mem _ hq),
          rowsOf_filter_pid_ne _ hne]
        rfl
      · intro r hr
        rw [hstep] at hr ⊢
        simp only at hr ⊢
        rw [bumpAll_eq_map] at hr
        rcases List.mem_map.mp hr with ⟨r₀, hr₀, rfl⟩
        simp only [addCount, List.filter_append, List.length_append,
          rowsOf_filter_image_count]
        rw [← hinv r₀ hr₀]

/-- C2 (amended): the invariant "exposure count equals the number of
assignment-ledger rows referencing the image" is preserved by any sequential
run in which each participant is invoked at most once and starts with no
assignment rows (the program's actual usage: `assign` is called exactly once
per freshly-generated participant id).  A re-invocation for a participant
holding a short assignment breaks the equality (see the counterexample). -/
theorem c2_count_matches_ledger (db : DB)
    (runs : List ((List Nat → List Nat) × String))
    (hn : (db.images.map (fun r => r.image_id)).Nodup)
    (hsh : ∀ pr ∈ runs, ∀ l, ((pr.1) l).Perm l)
    (hpids : (runs.map Prod.snd).Nodup)
    (hfresh : ∀ pr ∈ runs,
      db.assignments.filter (fun a => a.participant_id = pr.2) = [])
    (hinv : ∀ r ∈ db.images, r.assigned_count
      = (db.assignments.filter (fun a => a.image_id = r.image_id)).length) :
    ∀ r ∈ (runAll runs db).images, r.assigned_count
      = ((runAll runs db).assignments.filter
          (fun a => a.image_id = r.image_id)).length :=
  runAll_count_inv runs db hn hsh hpids hfresh hinv

/-- Witness for the amended C2: after a single fresh invocation on a
one-image catalog, the image's row (now with count 1) satisfies the
count-equals-rows invariant. -/
theorem c2_count_matches_ledger_witness :
    (⟨0, 0, "r", 0, 1⟩ : ImageRow) ∈ (runAll [(id, "p")] oneImageDB).images
    ∧ (⟨0, 0, "r", 0, 1⟩ : ImageRow).assigned_count
      = ((runAll [(id, "p")] oneImageDB).assignments.filter
          (fun a => a.image_id = (⟨0, 0, "r", 0, 1⟩ : ImageRow).image_id)).length :=
  ⟨by decide,
   c2_count_matches_ledger oneImageDB [(id, "p")] (by decide)
    (by
      intro pr hpr l
      rcases List.mem_singleton.mp hpr with rfl
      exact List.Perm.refl l)
    (by decide)
    (by
      intro pr hpr
      rcases List.mem_singleton.mp hpr with rfl
      decide)
    (by decide)
    (⟨0, 0, "r", 0, 1⟩ : ImageRow) (by decide)⟩

/-- C2 counterexample: re-invoking `assign` for a participant who holds a
short assignment (possible after inventory exhaustion) increments the
exposure count without adding a ledger row: after two calls for the same
participant on a one-image catalog the count is 2 but only 1 row references
the image.  This refutes the claim's "including repeated invocations for the
same participant". -/
theorem c2_counterexample :
    ((assign_images_for_participant id "p"
        (assign_images_for_participant id "p" oneImageDB).1).1.images).map
      (fun r => r.assigned_count) = [2]
    ∧ ((assign_images_for_participant id "p"
          (assign_images_for_participant id "p" oneImageDB).1).1.assignments.filter
        (fun a => a.image_id = 0)).length = 1 := by
  decide

/-- C6: one allocator invocation for a participant with no existing rows
commits pairwise-distinct image ids and ordinals forming exactly the
contiguous 0-based range of the realized assignment size. -/
theorem c6_nodup_and_contiguous (db : DB) (sh : List Nat → List Nat)
    (pid : String)
    (hn : (db.images.map (fun r => r.image_id)).Nodup)
    (hperm : ∀ l, (sh l).Perm l)
    (hfresh : db.assignments.filter (fun a => a.participant_id = pid) = []) :
    ((((assign_images_for_participant sh pid db).1.assignments).filter
        (fun a => a.participant_id = pid)).map (fun a => a.image_id)).Nodup
    ∧ ((((assign_images_for_participant sh pid db).1.assignments).filter
          (fun a => a.participant_id = pid)).map (fun a => a.ord))
        = List.range
            ((((assign_images_for_participant sh pid db).1.assignments).filter
              (fun a => a.participant_id = pid)).length) := by
  rw [assign_fresh hperm hn hfresh]
  simp only
  rw [List.filter_append, hfresh, rowsOf_filter_pid_self, List.nil_append]
  refine ⟨?_, ?_⟩
  · rw [rowsOf_map_image_id]
    exact ((hperm _).nodup_iff).mpr (selectChosen_spec hn).1
  · rw [rowsOf_map_ord, rowsOf_length]

/-- Witness for C6 on a one-image catalog with the identity shuffle. -/
theorem c6_nodup_and_contiguous_witness :
    ((((assign_images_for_participant id "p" oneImageDB).1.assignments).filter
        (fun a => a.participant_id = "p")).map (fun a => a.image_id)).Nodup
    ∧ ((((assign_images_for_participant id "p" oneImageDB).1.assignments).filter
          (fun a => a.participant_id = "p")).map (fun a => a.ord))
        = List.range
            ((((assign_images_for_participant id "p"
                oneImageDB).1.assignments).filter
              (fun a => a.participant_id = "p")).length) :=
  c6_nodup_and_contiguous oneImageDB id "p" (by decide)
    (fun l => List.Perm.refl l) (by decide)

/-- C8 (amended): on an empty catalog the allocator does NOT fail: it
returns normally with the state unchanged (committing a zero-row assignment
for the participant) and emits only the non-fatal shortage warning of lines
359-363; the registration proceeds.  The rating page (lines 593-596), not
the allocator, later halts with an error for a participant whose assignment
is empty. -/
theorem c8_empty_catalog_warns (sh : List Nat → List Nat) (pid : String)
    (hperm : ∀ l, (sh l).Perm l) :
    assign_images_for_participant sh pid ⟨[], []⟩ = (⟨[], []⟩, true)
    ∧ render_rating_halts ⟨[], []⟩ pid = true := by
  have h0 : sh (selectChosen (⟨[], []⟩ : DB).images) = [] := by
    have hsel : selectChosen (⟨[], []⟩ : DB).images = [] := rfl
    rw [hsel]
    exact (hperm []).eq_nil
  have hfr : (⟨[], []⟩ : DB).assignments.filter
      (fun a => a.participant_id = pid) = [] := rfl
  refine ⟨?_, rfl⟩
  rw [assign_fresh hperm (by decide) hfr, h0]
  rfl

/-- Witness for the amended C8 with the identity shuffle. -/
theorem c8_empty_catalog_warns_witness :
    assign_images_for_participant id "p" ⟨[], []⟩ = (⟨[], []⟩, true)
    ∧ render_rating_halts ⟨[], []⟩ "p" = true :=
  c8_empty_catalog_warns id "p" (fun l => List.Perm.refl l)

/-- C8 counterexample: with an empty catalog the allocator invocation
completes normally — state unchanged, zero assignment rows committed for the
participant, and only the shortage-warning flag raised — rather than failing
fatally and rejecting the registration as the claim states. -/
theorem c8_counterexample :
    (assign_images_for_participant id "p" ⟨[], []⟩).1 = ⟨[], []⟩
    ∧ (assign_images_for_participant id "p" ⟨[], []⟩).2 = true
    ∧ ((assign_images_for_participant id "p" ⟨[], []⟩).1.assignments.filter
        (fun a => a.participant_id = "p")) = [] := by
  decide

/-- The code's per-stratum availability list, characterized: exactly the
below-cap rows of the stratum in catalog row order, stably sorted by exposure
count. -/
theorem lookupStratum_fetch (images : List ImageRow) (k : Key) :
    lookupStratum k (fetch_available_by_strata images)
      = sortBy (fun a b => a.2 < b.2)
          (((availRows images).filter (fun r => decide (keyOf r = k))).map
            (fun r => (r.image_id, r.assigned_count))) := by
  rw [fetch_eq_sortGroups_groupFold, lookupStratum_sortGroups,
    lookupStratum_groupFold]
  rfl

/-- C9 (amended): `fetch_available_by_strata` returns, for each stratum key,
exactly the stratum's images with `assigned_count < R_TARGET`, ordered by
exposure count ascending — but ties are broken by the catalog's row (table)
order via the stable sort, NOT by image id ascending as the spec claims
(see the counterexample).  The result is deterministic for a fixed table
order. -/
theorem c9_available_ordering (images : List ImageRow) (k : Key) :
    lookupStratum k (fetch_available_by_strata images)
      = sortBy (fun a b => a.2 < b.2)
          (((availRows images).filter (fun r => decide (keyOf r = k))).map
            (fun r => (r.image_id, r.assigned_count)))
    ∧ (lookupStratum k (fetch_available_by_strata images)).Pairwise
        (fun a b => a.2 ≤ b.2) := by
  refine ⟨lookupStratum_fetch images k, ?_⟩
  rw [lookupStratum_fetch images k]
  exact sortBy_key_sorted (fun e : Entry => e.2) _

/-- C9 counterexample: two images of the same stratum with equal exposure
counts, stored in table order `[id 1, id 0]`.  The code returns them in
table order `[(1,0), (0,0)]`, whereas the spec's "exposure ascending then id
ascending" ordering (the spec-modelled `specAvailableInStratum`) yields
`[(0,0), (1,0)]`. -/
theorem c9_counterexample :
    lookupStratum (0, "r", 0) (fetch_available_by_strata twoRowCatalog)
      = [(1, 0), (0, 0)]
    ∧ specAvailableInStratum twoRowCatalog (0, "r", 0) R_TARGET
      = [(0, 0), (1, 0)]
    ∧ lookupStratum (0, "r", 0) (fetch_available_by_strata twoRowCatalog)
      ≠ specAvailableInStratum twoRowCatalog (0, "r", 0) R_TARGET := by
  decide

/-- C5: for every combination `c` in the cross product of the catalog's
distinct axis values, the coverage pass consumes exactly
`min COVER_M (stratum inventory)` entries of `c`'s stratum — the first
entries (hence the least exposed, the list being sorted by exposure count)
of the availability list — leaving the `COVER_M`-th entry onward; every
consumed id is contributed to the candidate list.  A combination with an
empty stratum has inventory 0 and contributes nothing (and the pass is a
total function: no error is raised). -/
theorem c5_coverage_per_stratum (images : List ImageRow) (c : Key)
    (hc : c ∈ allCombos images) :
    lookupStratum c (coverResult images).2
      = (lookupStratum c (fetch_available_by_strata images)).drop COVER_M
    ∧ (lookupStratum c (fetch_available_by_strata images)).length
        - (lookupStratum c (coverResult images).2).length
      = min COVER_M (lookupStratum c (fetch_available_by_strata images)).length
    ∧ (lookupStratum c (fetch_available_by_strata images)).Pairwise
        (fun a b => a.2 ≤ b.2)
    ∧ ∀ x ∈ ((lookupStratum c (fetch_available_by_strata images)).take
        COVER_M).map Prod.fst, x ∈ (coverResult images).1 := by
  have hnd := allCombos_nodup images
  have h1 : lookupStratum c (coverResult images).2
      = (lookupStratum c (fetch_available_by_strata images)).drop COVER_M := by
    show lookupStratum c ((allCombos images).foldl coverStep
        ([], fetch_available_by_strata images)).2 = _
    exact coverFold_lookup_mem [] _ hnd hc
  refine ⟨h1, ?_, ?_, ?_⟩
  · rw [h1, List.length_drop]
    omega
  · rw [lookupStratum_fetch]
    exact sortBy_key_sorted (fun e : Entry => e.2) _
  · intro x hx
    show x ∈ ((allCombos images).foldl coverStep
        ([], fetch_available_by_strata images)).1
    exact coverFold_take_mem _ hnd hc x hx

/-- Witness for C5 on a one-image catalog at its only combination. -/
theorem c5_coverage_per_stratum_witness :
    lookupStratum (0, "r", 0) (coverResult oneImageDB.images).2
      = (lookupStratum (0, "r", 0)
          (fetch_available_by_strata oneImageDB.images)).drop COVER_M
    ∧ (lookupStratum (0, "r", 0)
          (fetch_available_by_strata oneImageDB.images)).length
        - (lookupStratum (0, "r", 0) (coverResult oneImageDB.images).2).length
      = min COVER_M (lookupStratum (0, "r", 0)
          (fetch_available_by_strata oneImageDB.images)).length
    ∧ (lookupStratum (0, "r", 0)
        (fetch_available_by_strata oneImageDB.images)).Pairwise
        (fun a b => a.2 ≤ b.2)
    ∧ ∀ x ∈ ((lookupStratum (0, "r", 0)
        (fetch_available_by_strata oneImageDB.images)).take
        COVER_M).map Prod.fst, x ∈ (coverResult oneImageDB.images).1 :=
  c5_coverage_per_stratum oneImageDB.images (0, "r", 0) (by decide)

/-! ## Helper lemmas for the realized-size analysis (claim C4) -/

theorem nodup_length_le_one {l : List α} (hnd : l.Nodup) (a : α)
    (h : ∀ x ∈ l, x = a) : l.length ≤ 1 := by
  cases l with
  | nil => simp
  | cons x xs =>
      cases xs with
      | nil => simp
      | cons y ys =>
          have hx : x = a := h x (List.mem_cons_self _ _)
          have hy : y = a := h y (List.mem_cons_of_mem _ (List.mem_cons_self _ _))
          exfalso
          exact (List.nodup_cons.mp hnd).1
            (hx.trans hy.symm ▸ List.mem_cons_self y ys)

theorem nodup_length_le_two {l : List α} (hnd : l.Nodup) (a b : α)
    (h : ∀ x ∈ l, x = a ∨ x = b) : l.length ≤ 2 := by
  cases l with
  | nil => simp
  | cons x xs =>
      have hxs : xs.length ≤ 1 := by
        rcases h x (List.mem_cons_self _ _) with rfl | rfl
        · refine nodup_length_le_one (List.nodup_cons.mp hnd).2 b ?_
          intro y hy
          rcases h y (List.mem_cons_of_mem _ hy) with rfl | rfl
          · exact absurd hy (List.nodup_cons.mp hnd).1
          · rfl
        · refine nodup_length_le_one (List.nodup_cons.mp hnd).2 a ?_
          intro y hy
          rcases h y (List.mem_cons_of_mem _ hy) with rfl | rfl
          · rfl
          · exact absurd hy (List.nodup_cons.mp hnd).1
      simp only [List.length_cons]
      omega

theorem allEntries_eq_nil_of_lookup {s : Strata}
    (hnd : (strataKeys s).Nodup)
    (h : ∀ k ∈ strataKeys s, lookupStratum k s = []) : allEntries s = [] := by
  induction s with
  | nil => rfl
  | cons p rest ih =>
      obtain ⟨k₀, es⟩ := p
      have hes : es = [] := by
        have := h k₀ (by simp [strataKeys])
        simpa [lookupStratum] using this
      have hrest : allEntries rest = [] := by
        refine ih ?_ ?_
        · exact (List.nodup_cons.mp (by simpa [strataKeys] using hnd)).2
        · intro k hk
          have hne : k₀ ≠ k := by
            rintro rfl
            exact (List.nodup_cons.mp (by simpa [strataKeys] using hnd)).1 hk
          have := h k (by
            simp only [strataKeys, List.map_cons, List.mem_cons]
            exact Or.inr hk)
          simpa [lookupStratum, hne] using this
      simp [allEntries, hes]
      simpa [allEntries] using hrest

theorem bigCatalog_map_id :
    bigCatalog.map (fun r => r.image_id) = List.range 502 := by
  rw [bigCatalog, List.map_map]
  show List.map (fun i => i) (List.range 502) = List.range 502
  simp

theorem bigCatalog_nodup : (bigCatalog.map (fun r => r.image_id)).Nodup := by
  rw [bigCatalog_map_id]
  exact List.nodup_range 502

theorem bigCatalog_avail : availRows bigCatalog = bigCatalog := by
  rw [availRows]
  refine List.filter_eq_self.mpr ?_
  intro r hr
  rw [bigCatalog] at hr
  rcases List.mem_map.mp hr with ⟨i, _, rfl⟩
  rfl

theorem bigCatalog_stratum_le (k : Key) :
    (lookupStratum k (fetch_available_by_strata bigCatalog)).length
      ≤ COVER_M := by
  rw [lookupStratum_fetch, sortBy_length, List.length_map, bigCatalog_avail,
    bigCatalog, List.filter_map, List.length_map]
  obtain ⟨c, s, d⟩ := k
  refine nodup_length_le_two (List.Nodup.filter _ (List.nodup_range _))
    (2 * c.toNat) (2 * c.toNat + 1) ?_
  intro i hi
  have hq := (List.mem_filter.mp hi).2
  simp only [Function.comp, keyOf, decide_eq_true_eq, Prod.mk.injEq] at hq
  have hdiv : i / 2 = c.toNat := by
    rw [← hq.1]
    rfl
  omega

theorem bigCatalog_cover_exhausts :
    allIds (coverResult bigCatalog).2 = [] := by
  have hkeys : strataKeys (coverResult bigCatalog).2
      = strataKeys (fetch_available_by_strata bigCatalog) := by
    show strataKeys ((allCombos bigCatalog).foldl coverStep
        ([], fetch_available_by_strata bigCatalog)).2 = _
    exact strataKeys_coverFold _ _ _
  have hnil : allEntries (coverResult bigCatalog).2 = [] := by
    refine allEntries_eq_nil_of_lookup ?_ ?_
    · rw [hkeys]
      exact strataKeys_fetch_nodup _
    · intro k hk
      rw [hkeys] at hk
      have hcomb := strataKeys_fetch_subset_combos hk
      have hlk : lookupStratum k (coverResult bigCatalog).2
          = (lookupStratum k
              (fetch_available_by_strata bigCatalog)).drop COVER_M := by
        show lookupStratum k ((allCombos bigCatalog).foldl coverStep
            ([], fetch_available_by_strata bigCatalog)).2 = _
        exact coverFold_lookup_mem [] _ (allCombos_nodup _) hcomb
      rw [hlk, List.drop_eq_nil_iff]
      exact bigCatalog_stratum_le k
  rw [allIds, hnil]
  rfl

theorem bigCatalog_avail_length : (availIds bigCatalog).length = 502 := by
  rw [availIds, bigCatalog_avail, bigCatalog_map_id, List.length_range]

theorem bigCatalog_cover_length : (coverResult bigCatalog).1.length = 502 := by
  have hlen := (coverResult_perm bigCatalog).length_eq
  rw [bigCatalog_cover_exhausts, List.append_nil, bigCatalog_avail_length]
    at hlen
  exact hlen

theorem assign_fresh_realized (db : DB) (sh : List Nat → List Nat)
    (pid : String)
    (hn : (db.images.map (fun r => r.image_id)).Nodup)
    (hperm : ∀ l, (sh l).Perm l)
    (hfresh : db.assignments.filter (fun a => a.participant_id = pid) = []) :
    ((assign_images_for_participant sh pid db).1.assignments.filter
        (fun a => a.participant_id = pid)).length
      = max (coverResult db.images).1.length
          (min K_PER_PERSON (availIds db.images).length) := by
  rw [assign_fresh hperm hn hfresh]
  simp only
  rw [List.filter_append, hfresh, rowsOf_filter_pid_self, List.nil_append,
    rowsOf_length, (hperm _).length_eq]
  exact (selectChosen_spec hn).2.2

/-- C4 (amended): for a fresh participant the realized (committed) assignment
size equals `max (coverage candidates) (min K_PER_PERSON available)`: it is
`K_PER_PERSON` capped by the available inventory, EXCEPT that when the
coverage pass alone yields more than `K_PER_PERSON` candidates the whole
coverage set is committed untruncated — the realized size then exceeds
`K_PER_PERSON` (see the counterexample). -/
theorem c4_realized_size (db : DB) (sh : List Nat → List Nat) (pid : String)
    (hn : (db.images.map (fun r => r.image_id)).Nodup)
    (hperm : ∀ l, (sh l).Perm l)
    (hfresh : db.assignments.filter (fun a => a.participant_id = pid) = []) :
    ((assign_images_for_participant sh pid db).1.assignments.filter
        (fun a => a.participant_id = pid)).length
      = max (coverResult db.images).1.length
          (min K_PER_PERSON (availIds db.images).length) :=
  assign_fresh_realized db sh pid hn hperm hfresh

/-- Witness for the amended C4 on a one-image catalog. -/
theorem c4_realized_size_witness :
    ((assign_images_for_participant id "p" oneImageDB).1.assignments.filter
        (fun a => a.participant_id = "p")).length
      = max (coverResult oneImageDB.images).1.length
          (min K_PER_PERSON (availIds oneImageDB.images).length) :=
  c4_realized_size oneImageDB id "p" (by decide)
    (fun l => List.Perm.refl l) (by decide)

set_option maxRecDepth 100000 in
/-- C4 counterexample: a catalog of 502 images in 251 strata (two per
stratum, all below cap).  The coverage pass alone yields
`251 * COVER_M = 502` candidates and no truncation to `K_PER_PERSON = 500`
happens: the fresh participant's committed assignment has 502 rows,
exceeding `K_PER_PERSON`. -/
theorem c4_counterexample :
    K_PER_PERSON
      < ((assign_images_for_participant id "p"
            ⟨bigCatalog, []⟩).1.assignments.filter
          (fun a => a.participant_id = "p")).length := by
  have hperm : ∀ l : List Nat, (id l).Perm l := fun l => List.Perm.refl l
  have hfr : (⟨bigCatalog, []⟩ : DB).assignments.filter
      (fun a => a.participant_id = "p") = [] := rfl
  have h : ((assign_images_for_participant id "p"
        ⟨bigCatalog, []⟩).1.assignments.filter
          (fun a => a.participant_id = "p")).length
      = max (coverResult bigCatalog).1.length
          (min K_PER_PERSON (availIds bigCatalog).length) :=
    assign_fresh_realized ⟨bigCatalog, []⟩ id "p" bigCatalog_nodup hperm hfr
  rw [h, bigCatalog_cover_length, bigCatalog_avail_length]
  have hK : K_PER_PERSON = 500 := rfl
  omega

/-! ## The PostgreSQL slot counter (claim C10) -/

theorem pgStateAfter_formula {p : Int} (hp : 0 < p) (n : Nat) :
    pgStateAfter p ⟨1⟩ n = ⟨Int.ofNat (n % p.toNat) + 1⟩ := by
  have hpt : ((p.toNat : Nat) : Int) = p := Int.toNat_of_nonneg hp.le
  induction n with
  | zero =>
      show (⟨1⟩ : PgState) = _
      simp [Nat.zero_mod]
  | succ n ih =>
      show (allocate_next_slot p (pgStateAfter p ⟨1⟩ n)).2 = _
      rw [ih, allocate_next_slot, if_neg (not_le.mpr hp)]
      simp only
      congr 1
      have htm : (Int.ofNat (n % p.toNat) + 1).tmod p
          = (Int.ofNat (n % p.toNat) + 1) % p := by
        refine Int.tmod_eq_emod ?_ hp.le
        have : (0 : Int) ≤ Int.ofNat (n % p.toNat) := Int.ofNat_nonneg _
        omega
      have hcast1 : Int.ofNat (n % p.toNat) + 1
          = ((n % p.toNat + 1 : Nat) : Int) :=
        (Nat.cast_add_one (n % p.toNat)).symm
      have hmod : ∀ m : Nat, ((m : Nat) : Int) % p
          = ((m % p.toNat : Nat) : Int) := by
        intro m
        conv_lhs => rw [← hpt]
        exact (Int.natCast_mod m p.toNat).symm
      rw [htm, hcast1, hmod, Nat.mod_add_mod]
      rfl

/-- C10: `allocate_next_slot` returns the current counter and stores
`(current tmod p_total) + 1`; starting from a counter of at least 1 the
stored value stays in `{1, …, p_total}`; the slot handed to registrant
`n + p_total` equals the slot handed to registrant `n` (so slots cycle
`1, 2, …, p_total, 1, …` and later registrants receive the same precomputed
plan list as the earlier slot); for `p_total ≤ 0` the call returns 1 and
leaves the counter untouched. -/
theorem c10_slot_counter (p_total : Int) (s : PgState) (n : Nat)
    (plan : List PlanRow) :
    (p_total ≤ 0 → allocate_next_slot p_total s = (1, s))
    ∧ (0 < p_total →
        (allocate_next_slot p_total s).1 = s.next_slot
        ∧ (allocate_next_slot p_total s).2.next_slot
            = Int.tmod s.next_slot p_total + 1
        ∧ (1 ≤ s.next_slot →
            1 ≤ (allocate_next_slot p_total s).2.next_slot
            ∧ (allocate_next_slot p_total s).2.next_slot ≤ p_total)
        ∧ slotOfRegistrant p_total ⟨1⟩ (n + p_total.toNat)
            = slotOfRegistrant p_total ⟨1⟩ n
        ∧ get_plan_image_ids_for_slot plan
            (slotOfRegistrant p_total ⟨1⟩ (n + p_total.toNat))
          = get_plan_image_ids_for_slot plan
              (slotOfRegistrant p_total ⟨1⟩ n)) := by
  constructor
  · intro hle
    rw [allocate_next_slot, if_pos hle]
  · intro hp
    have hne := not_le.mpr hp
    have h1 : (allocate_next_slot p_total s).1 = s.next_slot := by
      rw [allocate_next_slot, if_neg hne]
    have h2 : (allocate_next_slot p_total s).2.next_slot
        = Int.tmod s.next_slot p_total + 1 := by
      rw [allocate_next_slot, if_neg hne]
    have hcycle : slotOfRegistrant p_total ⟨1⟩ (n + p_total.toNat)
        = slotOfRegistrant p_total ⟨1⟩ n := by
      have hf : ∀ m : Nat, slotOfRegistrant p_total ⟨1⟩ m
          = Int.ofNat (m % p_total.toNat) + 1 := by
        intro m
        rw [slotOfRegistrant, allocate_next_slot, if_neg hne,
          pgStateAfter_formula hp]
      rw [hf, hf, Nat.add_mod_right]
    refine ⟨h1, h2, ?_, hcycle, by rw [hcycle]⟩
    intro hs
    rw [h2]
    have hnn : 0 ≤ Int.tmod s.next_slot p_total :=
      Int.tmod_nonneg _ (by omega)
    have hlt : Int.tmod s.next_slot p_total < p_total :=
      Int.tmod_lt_of_pos _ hp
    omega

/-- Witness for C10 at `p_total = 3`: the counter wraps from 3 back to 1 and
registrant 5 receives the same slot as registrant 2. -/
theorem c10_slot_counter_witness :
    allocate_next_slot 3 ⟨3⟩ = (3, ⟨1⟩)
    ∧ slotOfRegistrant 3 ⟨1⟩ 5 = slotOfRegistrant 3 ⟨1⟩ 2 := by
  refine ⟨by decide, ?_⟩
  have h := (c10_slot_counter 3 ⟨3⟩ 2 []).2 (by decide)
  exact h.2.2.2.1

end SCIIQA
